import Mathlib

/-!
Verification of the minesweeper board model in `src/minesweeper.py`.

The board state is embedded shallowly: Python sets of `(x, y)` pairs become
`Finset (ℤ × ℤ)`, the `mines_near` dict becomes a partial map
`Coord → Option Near`, and the float `mines_density` is modelled as a
rational number.  The random stream consumed by mine placement is modelled
as an explicit list of draws.  `open` returns the mutated state together
with an `Outcome` recording the emitted event (`won` / `lost` / none) or
the `KeyError` raised by the neighbour-dictionary lookup.
-/

set_option autoImplicit false

abbrev Coord := ℤ × ℤ

/-- Value stored in `mines_near[xy]`: either the Python string sentinel
`'mine'` or the integer count of neighbouring mines. -/
inductive Near where
  | mine : Near
  | count (n : ℕ) : Near
deriving DecidableEq, Repr

/-- Result of one `open` call: no event, the Loss event (`self.lose()`),
the Win event (`self.win()`), or a `KeyError` escaping from the
`self.neighbours[xy]` lookup. -/
inductive Outcome where
  | quiet : Outcome
  | lost : Outcome
  | won : Outcome
  | keyError : Outcome
deriving DecidableEq, Repr

/-- The state of a `MineSweeper` object: fields follow the Python
attributes `columns`, `rows`, `_mines`, `opened`, `flagged`,
`mines_near`, `empty_remaining`. -/
structure MineSweeper where
  columns : ℤ
  rows : ℤ
  mines : Finset Coord
  opened : Finset Coord
  flagged : Finset Coord
  mines_near : Coord → Option Near
  empty_remaining : ℤ

/-- The whole board, `self.xys = set((x, y) for x in range(columns) for y in range(rows))`. -/
def xysOf (columns rows : ℤ) : Finset Coord :=
  Finset.Ico 0 columns ×ˢ Finset.Ico 0 rows

/-- `self.xys` of a constructed object. -/
def MineSweeper.xys (g : MineSweeper) : Finset Coord :=
  xysOf g.columns g.rows

/-- The value stored at key `xy` of the precomputed `self.neighbours`
dict: the 3x3 area around `xy` minus the center, intersected with the
board. -/
def neighboursOf (columns rows : ℤ) (xy : Coord) : Finset Coord :=
  (({xy.1 - 1, xy.1, xy.1 + 1} : Finset ℤ) ×ˢ ({xy.2 - 1, xy.2, xy.2 + 1} : Finset ℤ)).filter
    (fun zw => zw ≠ xy ∧ zw ∈ xysOf columns rows)

/-- The `self.neighbours` dict itself: its keys are exactly `self.xys`
(a lookup at any other coordinate raises `KeyError`, modelled as `none`). -/
def MineSweeper.neighbours (g : MineSweeper) (xy : Coord) : Option (Finset Coord) :=
  if xy ∈ g.xys then some (neighboursOf g.columns g.rows xy) else none

/-- Python `int()` applied to a (nonnegative or negative) real value:
truncation toward zero. -/
def pyInt (q : ℚ) : ℤ :=
  if 0 ≤ q then ⌊q⌋ else ⌈q⌉

/-- The mine-placement loop
`while len(self._mines) < mines_number: self._mines.add((randrange(columns), randrange(rows)))`,
with the stream of random draws made explicit. -/
def placeMines (target : ℕ) (draws : List Coord) : Finset Coord :=
  draws.foldl (fun s d => if s.card < target then insert d s else s) ∅

/-- `MineSweeper.__init__(columns, rows, mines_density)`: no validation is
performed; the mine count is `int(mines_density * columns * rows)`, and
`empty_remaining = columns * rows - mines_number`. -/
def init (columns rows : ℤ) (density : ℚ) (draws : List Coord) : MineSweeper :=
  let mines_number : ℤ := pyInt (density * (columns : ℚ) * (rows : ℚ))
  { columns := columns
    rows := rows
    mines := placeMines mines_number.toNat draws
    opened := ∅
    flagged := ∅
    mines_near := fun _ => none
    empty_remaining := columns * rows - mines_number }

/-- `MineSweeper.flag(xy)`: `self.flagged.add(xy)`, unconditionally. -/
def flag (g : MineSweeper) (xy : Coord) : MineSweeper :=
  { g with flagged := insert xy g.flagged }

/-- `MineSweeper.open(xy)`.  Mutation order follows the source: `xy` is
added to `self.opened` first; the mine branch stores the sentinel, calls
`flag` and `lose`; the other branch looks up `self.neighbours[xy]`
(raising `KeyError` for a missing key, after `opened` was already
mutated), stores the count, discards the flag, decrements
`empty_remaining` and calls `win` when it is `<= 0`. -/
def openCell (g : MineSweeper) (xy : Coord) : MineSweeper × Outcome :=
  if xy ∈ g.opened then (g, Outcome.quiet)
  else
    if xy ∈ g.mines then
      ({ g with
          opened := insert xy g.opened
          mines_near := fun z => if z = xy then some Near.mine else g.mines_near z
          flagged := insert xy g.flagged }, Outcome.lost)
    else
      match g.neighbours xy with
      | none => ({ g with opened := insert xy g.opened }, Outcome.keyError)
      | some nb =>
          let remaining := g.empty_remaining - 1
          ({ g with
              opened := insert xy g.opened
              mines_near := fun z => if z = xy then some (Near.count ((nb ∩ g.mines).card)) else g.mines_near z
              flagged := g.flagged.erase xy
              empty_remaining := remaining },
           if remaining ≤ 0 then Outcome.won else Outcome.quiet)

/-- The `right_clicked` handler of `MineSweeperGUI`: flags an unflagged
square; unflags a flagged square unless it is an opened mine. -/
def rightClicked (g : MineSweeper) (xy : Coord) : MineSweeper :=
  if xy ∉ g.flagged then flag g xy
  else if xy ∈ g.opened ∧ xy ∈ g.mines then g
  else { g with flagged := g.flagged.erase xy }

/-- Query `xy in self.opened`. -/
def isOpened (g : MineSweeper) (xy : Coord) : Bool :=
  xy ∈ g.opened

/-- Query `xy in self.flagged`. -/
def isFlagged (g : MineSweeper) (xy : Coord) : Bool :=
  xy ∈ g.flagged

/-- Chebyshev distance between two coordinates. -/
def chebDist (a b : Coord) : ℕ :=
  max (a.1 - b.1).natAbs (a.2 - b.2).natAbs

/-- One player action on the board. -/
inductive Op where
  | openOp (xy : Coord) : Op
  | flagOp (xy : Coord) : Op
  | rightClickOp (xy : Coord) : Op
deriving DecidableEq, Repr

/-- The coordinate an operation acts on. -/
def Op.xy : Op → Coord
  | .openOp xy => xy
  | .flagOp xy => xy
  | .rightClickOp xy => xy

/-- Apply one operation, returning the new state and the outcome of the
call (`flag` and the right-click handler emit no event). -/
def step (g : MineSweeper) : Op → MineSweeper × Outcome
  | .openOp xy => openCell g xy
  | .flagOp xy => (flag g xy, Outcome.quiet)
  | .rightClickOp xy => (rightClicked g xy, Outcome.quiet)

/-- Run a sequence of operations. -/
def run (g : MineSweeper) (ops : List Op) : MineSweeper :=
  ops.foldl (fun g op => (step g op).1) g

/-- The list of outcomes produced by a sequence of operations. -/
def trace : MineSweeper → List Op → List Outcome
  | _, [] => []
  | g, op :: t => (step g op).2 :: trace (step g op).1 t

/-- Whether an outcome is the Win event. -/
def isWon : Outcome → Bool
  | .won => true
  | _ => false

/-- One iteration of the placement loop. -/
def placeStep (target : ℕ) (s : Finset Coord) (d : Coord) : Finset Coord :=
  if s.card < target then insert d s else s

theorem placeMines_eq_foldl (target : ℕ) (draws : List Coord) :
    placeMines target draws = draws.foldl (placeStep target) ∅ := rfl

theorem foldl_place_subset (target : ℕ) (l : List Coord) :
    ∀ s : Finset Coord, l.foldl (placeStep target) s ⊆ s ∪ l.toFinset := by
  induction l with
  | nil => intro s; simp
  | cons d t ih =>
      intro s
      rw [List.foldl_cons]
      refine (ih (placeStep target s d)).trans ?_
      intro z hz
      rcases Finset.mem_union.1 hz with hz | hz
      · unfold placeStep at hz
        split_ifs at hz
        · rcases Finset.mem_insert.1 hz with rfl | hz
          · simp
          · simp [hz]
        · simp [hz]
      · simp [hz]

theorem foldl_place_card_le (target : ℕ) (l : List Coord) :
    ∀ s : Finset Coord, s.card ≤ target → (l.foldl (placeStep target) s).card ≤ target := by
  induction l with
  | nil => intro s hs; simpa using hs
  | cons d t ih =>
      intro s hs
      rw [List.foldl_cons]
      refine ih _ ?_
      unfold placeStep
      split_ifs with h
      · exact (Finset.card_insert_le _ _).trans h
      · exact hs

theorem foldl_place_stop (target : ℕ) (l : List Coord) :
    ∀ s : Finset Coord, target ≤ s.card → l.foldl (placeStep target) s = s := by
  induction l with
  | nil => intro s _; rfl
  | cons d t ih =>
      intro s hs
      rw [List.foldl_cons]
      have h : placeStep target s d = s := by
        unfold placeStep
        rw [if_neg (by omega)]
      rw [h, ih s hs]

theorem foldl_place_main (target : ℕ) (l : List Coord) :
    ∀ s : Finset Coord, s.card ≤ target →
      (l.foldl (placeStep target) s).card = target ∨
        l.foldl (placeStep target) s = s ∪ l.toFinset := by
  induction l with
  | nil => intro s _; right; simp
  | cons d t ih =>
      intro s hs
      by_cases h : s.card < target
      · rw [List.foldl_cons]
        have hstep : placeStep target s d = insert d s := by
          unfold placeStep; rw [if_pos h]
        have hcard : (insert d s).card ≤ target :=
          (Finset.card_insert_le _ _).trans (by omega)
        rcases ih (placeStep target s d) (hstep ▸ hcard) with hc | he
        · exact Or.inl hc
        · right
          rw [he, hstep, List.toFinset_cons, Finset.insert_union, Finset.union_insert]
      · left
        rw [foldl_place_stop target (d :: t) s (by omega)]
        omega

theorem placeMines_subset (target : ℕ) (draws : List Coord) :
    placeMines target draws ⊆ draws.toFinset := by
  rw [placeMines_eq_foldl]
  simpa using foldl_place_subset target draws ∅

theorem placeMines_card_le (target : ℕ) (draws : List Coord) :
    (placeMines target draws).card ≤ target := by
  rw [placeMines_eq_foldl]
  exact foldl_place_card_le target draws ∅ (by simp)

theorem placeMines_card (target : ℕ) (draws : List Coord)
    (h : target ≤ draws.toFinset.card) : (placeMines target draws).card = target := by
  rw [placeMines_eq_foldl]
  rcases foldl_place_main target draws ∅ (by simp) with hc | he
  · exact hc
  · have h1 : (draws.foldl (placeStep target) ∅).card ≤ target :=
      foldl_place_card_le target draws ∅ (by simp)
    rw [he]
    rw [he, Finset.empty_union] at h1
    rw [Finset.empty_union]
    omega

theorem xysOf_card (c r : ℤ) (hc : 0 ≤ c) (hr : 0 ≤ r) :
    ((xysOf c r).card : ℤ) = c * r := by
  rw [xysOf, Finset.card_product, Int.card_Ico, Int.card_Ico]
  push_cast [Int.toNat_of_nonneg (by omega : (0:ℤ) ≤ c - 0),
    Int.toNat_of_nonneg (by omega : (0:ℤ) ≤ r - 0)]
  ring

theorem mem_xysOf {c r : ℤ} {zw : Coord} :
    zw ∈ xysOf c r ↔ (0 ≤ zw.1 ∧ zw.1 < c) ∧ (0 ≤ zw.2 ∧ zw.2 < r) := by
  simp [xysOf, Finset.mem_product, Finset.mem_Ico]

theorem openCell_opened {g : MineSweeper} {xy : Coord} (h1 : xy ∈ g.opened) :
    openCell g xy = (g, Outcome.quiet) := by
  simp [openCell, h1]

theorem openCell_mine {g : MineSweeper} {xy : Coord} (h1 : xy ∉ g.opened)
    (h2 : xy ∈ g.mines) :
    openCell g xy =
      ({ g with
          opened := insert xy g.opened
          mines_near := fun z => if z = xy then some Near.mine else g.mines_near z
          flagged := insert xy g.flagged }, Outcome.lost) := by
  simp [openCell, h1, h2]

theorem openCell_oob {g : MineSweeper} {xy : Coord} (h1 : xy ∉ g.opened)
    (h2 : xy ∉ g.mines) (h3 : xy ∉ g.xys) :
    openCell g xy = ({ g with opened := insert xy g.opened }, Outcome.keyError) := by
  simp [openCell, h1, h2, MineSweeper.neighbours, h3]

theorem openCell_safe {g : MineSweeper} {xy : Coord} (h1 : xy ∉ g.opened)
    (h2 : xy ∉ g.mines) (h3 : xy ∈ g.xys) :
    openCell g xy =
      ({ g with
          opened := insert xy g.opened
          mines_near := fun z =>
            if z = xy then some (Near.count ((neighboursOf g.columns g.rows xy ∩ g.mines).card))
            else g.mines_near z
          flagged := g.flagged.erase xy
          empty_remaining := g.empty_remaining - 1 },
       if g.empty_remaining - 1 ≤ 0 then Outcome.won else Outcome.quiet) := by
  simp [openCell, h1, h2, MineSweeper.neighbours, h3]

theorem openCell_frame (g : MineSweeper) (xy : Coord) :
    (openCell g xy).1.columns = g.columns ∧ (openCell g xy).1.rows = g.rows ∧
    (openCell g xy).1.mines = g.mines ∧ g.opened ⊆ (openCell g xy).1.opened := by
  by_cases h1 : xy ∈ g.opened
  · rw [openCell_opened h1]
    exact ⟨rfl, rfl, rfl, Finset.Subset.refl _⟩
  · by_cases h2 : xy ∈ g.mines
    · rw [openCell_mine h1 h2]
      exact ⟨rfl, rfl, rfl, Finset.subset_insert _ _⟩
    · by_cases h3 : xy ∈ g.xys
      · rw [openCell_safe h1 h2 h3]
        exact ⟨rfl, rfl, rfl, Finset.subset_insert _ _⟩
      · rw [openCell_oob h1 h2 h3]
        exact ⟨rfl, rfl, rfl, Finset.subset_insert _ _⟩

theorem flag_frame (g : MineSweeper) (xy : Coord) :
    (flag g xy).columns = g.columns ∧ (flag g xy).rows = g.rows ∧
    (flag g xy).mines = g.mines ∧ (flag g xy).opened = g.opened ∧
    (flag g xy).mines_near = g.mines_near ∧
    (flag g xy).empty_remaining = g.empty_remaining :=
  ⟨rfl, rfl, rfl, rfl, rfl, rfl⟩

theorem rightClicked_frame (g : MineSweeper) (xy : Coord) :
    (rightClicked g xy).columns = g.columns ∧ (rightClicked g xy).rows = g.rows ∧
    (rightClicked g xy).mines = g.mines ∧ (rightClicked g xy).opened = g.opened ∧
    (rightClicked g xy).mines_near = g.mines_near ∧
    (rightClicked g xy).empty_remaining = g.empty_remaining := by
  unfold rightClicked flag
  split_ifs <;> exact ⟨rfl, rfl, rfl, rfl, rfl, rfl⟩

theorem step_frame (g : MineSweeper) (op : Op) :
    (step g op).1.columns = g.columns ∧ (step g op).1.rows = g.rows ∧
    (step g op).1.mines = g.mines ∧ g.opened ⊆ (step g op).1.opened := by
  cases op with
  | openOp xy => exact openCell_frame g xy
  | flagOp xy =>
      obtain ⟨h1, h2, h3, h4, _, _⟩ := flag_frame g xy
      exact ⟨h1, h2, h3, h4 ▸ Finset.Subset.refl _⟩
  | rightClickOp xy =>
      obtain ⟨h1, h2, h3, h4, _, _⟩ := rightClicked_frame g xy
      exact ⟨h1, h2, h3, h4 ▸ Finset.Subset.refl _⟩

theorem step_xys (g : MineSweeper) (op : Op) : (step g op).1.xys = g.xys := by
  unfold MineSweeper.xys
  rw [(step_frame g op).1, (step_frame g op).2.1]

theorem run_frame (g : MineSweeper) (ops : List Op) :
    (run g ops).columns = g.columns ∧ (run g ops).rows = g.rows ∧
    (run g ops).mines = g.mines ∧ g.opened ⊆ (run g ops).opened := by
  induction ops generalizing g with
  | nil => exact ⟨rfl, rfl, rfl, Finset.Subset.refl _⟩
  | cons op t ih =>
      have hs := step_frame g op
      have ht := ih (step g op).1
      refine ⟨?_, ?_, ?_, ?_⟩
      · rw [run, List.foldl_cons, ← run, ht.1, hs.1]
      · rw [run, List.foldl_cons, ← run, ht.2.1, hs.2.1]
      · rw [run, List.foldl_cons, ← run, ht.2.2.1, hs.2.2.1]
      · rw [run, List.foldl_cons, ← run]
        exact hs.2.2.2.trans ht.2.2.2

theorem run_xys (g : MineSweeper) (ops : List Op) : (run g ops).xys = g.xys := by
  unfold MineSweeper.xys
  rw [(run_frame g ops).1, (run_frame g ops).2.1]

theorem run_cons (g : MineSweeper) (op : Op) (t : List Op) :
    run g (op :: t) = run (step g op).1 t := by
  rw [run, List.foldl_cons, ← run]

/-- Invariant holding in every state reachable from a constructed board:
the mines are in bounds, `empty_remaining` counts the in-bounds non-mine
squares not yet opened, and every opened mine is flagged. -/
def Good (g : MineSweeper) : Prop :=
  g.mines ⊆ g.xys ∧
  g.empty_remaining =
    ((g.xys \ g.mines).card : ℤ) - (((g.xys ∩ g.opened) \ g.mines).card : ℤ) ∧
  g.opened ∩ g.mines ⊆ g.flagged

theorem inter_insert_sdiff_of_mem {X O M : Finset Coord} {xy : Coord} (h : xy ∈ M) :
    (X ∩ insert xy O) \ M = (X ∩ O) \ M := by
  ext z
  by_cases hz : z = xy
  · subst hz; simp [h]
  · simp [hz]

theorem inter_insert_of_not_mem_left {X O : Finset Coord} {xy : Coord} (h : xy ∉ X) :
    X ∩ insert xy O = X ∩ O := by
  ext z
  by_cases hz : z = xy
  · subst hz; simp [h]
  · simp [hz]

theorem inter_insert_sdiff_of_safe {X O M : Finset Coord} {xy : Coord}
    (hx : xy ∈ X) (hm : xy ∉ M) :
    (X ∩ insert xy O) \ M = insert xy ((X ∩ O) \ M) := by
  ext z
  by_cases hz : z = xy
  · subst hz; simp [hx, hm]
  · simp [hz]

theorem good_openCell {g : MineSweeper} (hg : Good g) (xy : Coord) :
    Good (openCell g xy).1 := by
  obtain ⟨hm, hrem, hfl⟩ := hg
  by_cases h1 : xy ∈ g.opened
  · rw [openCell_opened h1]
    exact ⟨hm, hrem, hfl⟩
  by_cases h2 : xy ∈ g.mines
  · rw [openCell_mine h1 h2]
    refine ⟨hm, ?_, ?_⟩
    · show g.empty_remaining =
        ((g.xys \ g.mines).card : ℤ) - (((g.xys ∩ insert xy g.opened) \ g.mines).card : ℤ)
      rw [hrem, inter_insert_sdiff_of_mem h2]
    · show insert xy g.opened ∩ g.mines ⊆ insert xy g.flagged
      intro z hz
      rw [Finset.mem_inter, Finset.mem_insert] at hz
      rcases hz.1 with rfl | hzo
      · exact Finset.mem_insert_self _ _
      · exact Finset.mem_insert_of_mem (hfl (Finset.mem_inter.2 ⟨hzo, hz.2⟩))
  by_cases h3 : xy ∈ g.xys
  · rw [openCell_safe h1 h2 h3]
    refine ⟨hm, ?_, ?_⟩
    · show g.empty_remaining - 1 =
        ((g.xys \ g.mines).card : ℤ) - (((g.xys ∩ insert xy g.opened) \ g.mines).card : ℤ)
      rw [hrem, inter_insert_sdiff_of_safe h3 h2,
        Finset.card_insert_of_not_mem (by simp [h1])]
      push_cast
      ring
    · show insert xy g.opened ∩ g.mines ⊆ g.flagged.erase xy
      intro z hz
      rw [Finset.mem_inter, Finset.mem_insert] at hz
      rcases hz.1 with rfl | hzo
      · exact absurd hz.2 h2
      · exact Finset.mem_erase.2 ⟨fun he => h2 (he ▸ hz.2), hfl (Finset.mem_inter.2 ⟨hzo, hz.2⟩)⟩
  · rw [openCell_oob h1 h2 h3]
    refine ⟨hm, ?_, ?_⟩
    · show g.empty_remaining =
        ((g.xys \ g.mines).card : ℤ) - (((g.xys ∩ insert xy g.opened) \ g.mines).card : ℤ)
      rw [hrem, inter_insert_of_not_mem_left h3]
    · show insert xy g.opened ∩ g.mines ⊆ g.flagged
      intro z hz
      rw [Finset.mem_inter, Finset.mem_insert] at hz
      rcases hz.1 with rfl | hzo
      · exact absurd hz.2 h2
      · exact hfl (Finset.mem_inter.2 ⟨hzo, hz.2⟩)

theorem good_flag {g : MineSweeper} (hg : Good g) (xy : Coord) : Good (flag g xy) := by
  obtain ⟨hm, hrem, hfl⟩ := hg
  exact ⟨hm, hrem, hfl.trans (Finset.subset_insert _ _)⟩

theorem good_rightClicked {g : MineSweeper} (hg : Good g) (xy : Coord) :
    Good (rightClicked g xy) := by
  obtain ⟨hm, hrem, hfl⟩ := hg
  unfold rightClicked
  by_cases h1 : xy ∉ g.flagged
  · rw [if_pos h1]
    exact good_flag ⟨hm, hrem, hfl⟩ xy
  · rw [if_neg h1]
    by_cases h2 : xy ∈ g.opened ∧ xy ∈ g.mines
    · rw [if_pos h2]
      exact ⟨hm, hrem, hfl⟩
    · rw [if_neg h2]
      refine ⟨hm, hrem, ?_⟩
      show g.opened ∩ g.mines ⊆ g.flagged.erase xy
      intro z hz
      refine Finset.mem_erase.2 ⟨?_, hfl hz⟩
      rintro rfl
      rw [Finset.mem_inter] at hz
      exact h2 ⟨hz.1, hz.2⟩

theorem good_step {g : MineSweeper} (hg : Good g) (op : Op) : Good (step g op).1 := by
  cases op with
  | openOp xy => exact good_openCell hg xy
  | flagOp xy => exact good_flag hg xy
  | rightClickOp xy => exact good_rightClicked hg xy

theorem good_run {g : MineSweeper} (hg : Good g) (ops : List Op) : Good (run g ops) := by
  induction ops generalizing g with
  | nil => exact hg
  | cons op t ih =>
      rw [run_cons]
      exact ih (good_step hg op)

/-- The state invariants named by the spec: `Opened` and `Flagged` stay
within the board and the key set of `MinesNear` is exactly `Opened`. -/
def Inv6 (g : MineSweeper) : Prop :=
  g.opened ⊆ g.xys ∧ g.flagged ⊆ g.xys ∧
    ∀ z, (g.mines_near z).isSome = true ↔ z ∈ g.opened

theorem inv6_openCell {g : MineSweeper} {xy : Coord} (h6 : Inv6 g) (hxy : xy ∈ g.xys) :
    Inv6 (openCell g xy).1 := by
  obtain ⟨ho, hf, hk⟩ := h6
  by_cases h1 : xy ∈ g.opened
  · rw [openCell_opened h1]
    exact ⟨ho, hf, hk⟩
  by_cases h2 : xy ∈ g.mines
  · rw [openCell_mine h1 h2]
    refine ⟨?_, ?_, ?_⟩
    · show insert xy g.opened ⊆ g.xys
      exact Finset.insert_subset hxy ho
    · show insert xy g.flagged ⊆ g.xys
      exact Finset.insert_subset hxy hf
    · intro z
      show (if z = xy then some Near.mine else g.mines_near z).isSome = true ↔
        z ∈ insert xy g.opened
      by_cases hz : z = xy
      · subst hz; simp
      · simp [hz, hk z]
  by_cases h3 : xy ∈ g.xys
  · rw [openCell_safe h1 h2 h3]
    refine ⟨?_, ?_, ?_⟩
    · show insert xy g.opened ⊆ g.xys
      exact Finset.insert_subset hxy ho
    · show g.flagged.erase xy ⊆ g.xys
      exact (Finset.erase_subset _ _).trans hf
    · intro z
      show (if z = xy then
          some (Near.count ((neighboursOf g.columns g.rows xy ∩ g.mines).card))
        else g.mines_near z).isSome = true ↔ z ∈ insert xy g.opened
      by_cases hz : z = xy
      · subst hz; simp
      · simp [hz, hk z]
  · exact absurd hxy h3

theorem inv6_flag {g : MineSweeper} {xy : Coord} (h6 : Inv6 g) (hxy : xy ∈ g.xys) :
    Inv6 (flag g xy) := by
  obtain ⟨ho, hf, hk⟩ := h6
  exact ⟨ho, Finset.insert_subset hxy hf, hk⟩

theorem inv6_rightClicked {g : MineSweeper} {xy : Coord} (h6 : Inv6 g) (hxy : xy ∈ g.xys) :
    Inv6 (rightClicked g xy) := by
  obtain ⟨ho, hf, hk⟩ := h6
  unfold rightClicked
  by_cases h1 : xy ∉ g.flagged
  · rw [if_pos h1]
    exact inv6_flag ⟨ho, hf, hk⟩ hxy
  · rw [if_neg h1]
    by_cases h2 : xy ∈ g.opened ∧ xy ∈ g.mines
    · rw [if_pos h2]
      exact ⟨ho, hf, hk⟩
    · rw [if_neg h2]
      exact ⟨ho, (Finset.erase_subset _ _).trans hf, hk⟩

theorem inv6_step {g : MineSweeper} {op : Op} (h6 : Inv6 g) (hxy : op.xy ∈ g.xys) :
    Inv6 (step g op).1 := by
  cases op with
  | openOp xy => exact inv6_openCell h6 hxy
  | flagOp xy => exact inv6_flag h6 hxy
  | rightClickOp xy => exact inv6_rightClicked h6 hxy

theorem inv6_run {g : MineSweeper} {ops : List Op} (h6 : Inv6 g)
    (hops : ∀ op ∈ ops, op.xy ∈ g.xys) : Inv6 (run g ops) := by
  induction ops generalizing g with
  | nil => exact h6
  | cons op t ih =>
      rw [run_cons]
      refine ih (inv6_step h6 (hops op (by simp))) ?_
      intro o ho
      rw [step_xys]
      exact hops o (by simp [ho])

theorem openCell_mines_near_mono {g : MineSweeper} {xy : Coord}
    (hk : ∀ z, (g.mines_near z).isSome = true ↔ z ∈ g.opened) :
    ∀ z v, g.mines_near z = some v → (openCell g xy).1.mines_near z = some v := by
  intro z v hzv
  have hzo : z ∈ g.opened := (hk z).1 (by rw [hzv]; rfl)
  by_cases h1 : xy ∈ g.opened
  · rw [openCell_opened h1]
    exact hzv
  have hne : z ≠ xy := fun he => h1 (he ▸ hzo)
  by_cases h2 : xy ∈ g.mines
  · rw [openCell_mine h1 h2]
    show (if z = xy then some Near.mine else g.mines_near z) = some v
    rw [if_neg hne]
    exact hzv
  by_cases h3 : xy ∈ g.xys
  · rw [openCell_safe h1 h2 h3]
    show (if z = xy then
        some (Near.count ((neighboursOf g.columns g.rows xy ∩ g.mines).card))
      else g.mines_near z) = some v
    rw [if_neg hne]
    exact hzv
  · rw [openCell_oob h1 h2 h3]
    exact hzv

/-- Every in-bounds non-mine square has been opened (the winning
configuration). -/
def Done (g : MineSweeper) : Prop :=
  g.xys \ g.mines ⊆ g.opened

theorem done_step {g : MineSweeper} (hd : Done g) (op : Op) : Done (step g op).1 := by
  unfold Done
  rw [step_xys, (step_frame g op).2.2.1]
  exact hd.trans (step_frame g op).2.2.2

theorem won_iff {g : MineSweeper} (hg : Good g) (op : Op) :
    (step g op).2 = Outcome.won ↔
      ∃ xy, op = Op.openOp xy ∧ xy ∈ g.xys ∧ xy ∉ g.mines ∧ xy ∉ g.opened ∧
        g.xys \ g.mines ⊆ insert xy g.opened := by
  obtain ⟨hm, hrem, -⟩ := hg
  cases op with
  | flagOp xy => simp [step]
  | rightClickOp xy => simp [step]
  | openOp xy =>
      show (openCell g xy).2 = Outcome.won ↔ _
      by_cases h1 : xy ∈ g.opened
      · rw [openCell_opened h1]
        constructor
        · intro h; exact absurd h (by simp)
        · rintro ⟨xy', heq, -, -, hno, -⟩
          cases heq
          exact absurd h1 hno
      by_cases h2 : xy ∈ g.mines
      · rw [openCell_mine h1 h2]
        constructor
        · intro h; exact absurd h (by simp)
        · rintro ⟨xy', heq, -, hnm, -, -⟩
          cases heq
          exact absurd h2 hnm
      by_cases h3 : xy ∈ g.xys
      · rw [openCell_safe h1 h2 h3]
        have hAB : (g.xys ∩ g.opened) \ g.mines ⊆ g.xys \ g.mines :=
          Finset.sdiff_subset_sdiff Finset.inter_subset_left (Finset.Subset.refl _)
        have hxyB : xy ∈ g.xys \ g.mines := Finset.mem_sdiff.2 ⟨h3, h2⟩
        have hxyA : xy ∉ (g.xys ∩ g.opened) \ g.mines := by
          simp [Finset.mem_sdiff, Finset.mem_inter, h1]
        constructor
        · intro h
          have hle : g.empty_remaining - 1 ≤ 0 := by
            by_contra hgt
            rw [if_neg hgt] at h
            exact absurd h (by simp)
          refine ⟨xy, rfl, h3, h2, h1, ?_⟩
          have hcard : ((g.xys \ g.mines).card : ℤ) ≤
              ((g.xys ∩ g.opened) \ g.mines).card + 1 := by omega
          have hsub : insert xy ((g.xys ∩ g.opened) \ g.mines) ⊆ g.xys \ g.mines :=
            Finset.insert_subset hxyB hAB
          have hcard' : (g.xys \ g.mines).card ≤
              (insert xy ((g.xys ∩ g.opened) \ g.mines)).card := by
            rw [Finset.card_insert_of_not_mem hxyA]
            exact_mod_cast hcard
          have heq := Finset.eq_of_subset_of_card_le hsub hcard'
          intro z hz
          rw [← heq] at hz
          rcases Finset.mem_insert.1 hz with rfl | hz
          · exact Finset.mem_insert_self _ _
          · exact Finset.mem_insert_of_mem (Finset.mem_inter.1 (Finset.mem_sdiff.1 hz).1).2
        · rintro ⟨xy', heq, -, -, -, hsub⟩
          cases heq
          have hsub' : g.xys \ g.mines ⊆ insert xy ((g.xys ∩ g.opened) \ g.mines) := by
            intro z hz
            rcases Finset.mem_insert.1 (hsub hz) with rfl | hzo
            · exact Finset.mem_insert_self _ _
            · refine Finset.mem_insert_of_mem (Finset.mem_sdiff.2
                ⟨Finset.mem_inter.2 ⟨(Finset.mem_sdiff.1 hz).1, hzo⟩, (Finset.mem_sdiff.1 hz).2⟩)
          have hc : (g.xys \ g.mines).card ≤ ((g.xys ∩ g.opened) \ g.mines).card + 1 :=
            (Finset.card_le_card hsub').trans (Finset.card_insert_le _ _)
          have hle : g.empty_remaining - 1 ≤ 0 := by
            rw [hrem]
            have : ((g.xys \ g.mines).card : ℤ) ≤ ((g.xys ∩ g.opened) \ g.mines).card + 1 := by
              exact_mod_cast hc
            omega
          rw [if_pos hle]
      · rw [openCell_oob h1 h2 h3]
        constructor
        · intro h; exact absurd h (by simp)
        · rintro ⟨xy', heq, hx, -, -, -⟩
          cases heq
          exact absurd hx h3

theorem isWon_eq_false {o : Outcome} (h : o ≠ Outcome.won) : isWon o = false := by
  cases o <;> simp_all [isWon]

theorem not_won_of_done {g : MineSweeper} (hg : Good g) (hd : Done g) (op : Op) :
    (step g op).2 ≠ Outcome.won := by
  intro h
  rcases (won_iff hg op).1 h with ⟨xy, -, h3, h2, h1, -⟩
  exact h1 (hd (Finset.mem_sdiff.2 ⟨h3, h2⟩))

theorem done_of_won {g : MineSweeper} (hg : Good g) (op : Op)
    (h : (step g op).2 = Outcome.won) : Done (step g op).1 := by
  rcases (won_iff hg op).1 h with ⟨xy, hop, h3, h2, h1, hsub⟩
  subst hop
  unfold Done
  rw [step_xys, (step_frame g (Op.openOp xy)).2.2.1]
  show g.xys \ g.mines ⊆ (openCell g xy).1.opened
  rw [openCell_safe h1 h2 h3]
  exact hsub

theorem trace_cons (g : MineSweeper) (op : Op) (t : List Op) :
    trace g (op :: t) = (step g op).2 :: trace (step g op).1 t := rfl

theorem trace_no_won {g : MineSweeper} (hg : Good g) (hd : Done g) (ops : List Op) :
    (trace g ops).countP isWon = 0 := by
  induction ops generalizing g with
  | nil => rfl
  | cons op t ih =>
      rw [trace_cons, List.countP_cons, isWon_eq_false (not_won_of_done hg hd op)]
      simpa using ih (good_step hg op) (done_step hd op)

theorem trace_won_le_one {g : MineSweeper} (hg : Good g) (ops : List Op) :
    (trace g ops).countP isWon ≤ 1 := by
  induction ops generalizing g with
  | nil => simp [trace]
  | cons op t ih =>
      rw [trace_cons, List.countP_cons]
      by_cases hw : (step g op).2 = Outcome.won
      · have h0 : (trace (step g op).1 t).countP isWon = 0 :=
          trace_no_won (good_step hg op) (done_of_won hg op hw) t
        rw [h0]
        split_ifs <;> omega
      · rw [isWon_eq_false hw]
        have := ih (good_step hg op)
        simpa using this

theorem pyInt_of_nonneg {q : ℚ} (h : 0 ≤ q) : pyInt q = ⌊q⌋ := if_pos h

theorem pyInt_nonneg {q : ℚ} (h : 0 ≤ q) : 0 ≤ pyInt q := by
  rw [pyInt_of_nonneg h]
  exact Int.floor_nonneg.2 h

theorem pyInt_nonpos {q : ℚ} (h : q < 0) : pyInt q ≤ 0 := by
  rw [pyInt, if_neg (by exact not_le.2 h)]
  exact Int.ceil_le.2 (by exact_mod_cast h.le)

theorem chebDist_eq_one_iff {a b x y : ℤ} :
    chebDist (a, b) (x, y) = 1 ↔
      ((a = x - 1 ∨ a = x ∨ a = x + 1) ∧ (b = y - 1 ∨ b = y ∨ b = y + 1)) ∧
        ¬(a = x ∧ b = y) := by
  show max (a - x).natAbs (b - y).natAbs = 1 ↔ _
  rw [Nat.max_def]
  split_ifs <;> omega

theorem mem_neighboursOf {c r : ℤ} {xy zw : Coord} :
    zw ∈ neighboursOf c r xy ↔ zw ∈ xysOf c r ∧ chebDist zw xy = 1 := by
  rcases xy with ⟨x, y⟩
  rcases zw with ⟨a, b⟩
  unfold neighboursOf
  rw [Finset.mem_filter, Finset.mem_product, chebDist_eq_one_iff]
  simp only [Finset.mem_insert, Finset.mem_singleton, Prod.mk.injEq, ne_eq]
  constructor
  · rintro ⟨⟨ha, hb⟩, hne, hmem⟩
    exact ⟨hmem, ⟨ha, hb⟩, fun h => hne ⟨h.1, h.2⟩⟩
  · rintro ⟨hmem, ⟨ha, hb⟩, hne⟩
    exact ⟨⟨ha, hb⟩, fun h => hne ⟨h.1, h.2⟩, hmem⟩

theorem tripleCard (x : ℤ) : ({x - 1, x, x + 1} : Finset ℤ).card = 3 := by
  have h1 : x - 1 ∉ ({x, x + 1} : Finset ℤ) := by
    simp only [Finset.mem_insert, Finset.mem_singleton]
    push_neg
    omega
  have h2 : x ∉ ({x + 1} : Finset ℤ) := by
    simp only [Finset.mem_singleton]
    omega
  rw [Finset.card_insert_of_not_mem h1, Finset.card_insert_of_not_mem h2,
    Finset.card_singleton]

theorem not_mem_neighboursOf_self (c r : ℤ) (xy : Coord) :
    xy ∉ neighboursOf c r xy := by
  unfold neighboursOf
  simp [Finset.mem_filter]

theorem neighboursOf_card_le (c r : ℤ) (xy : Coord) :
    (neighboursOf c r xy).card ≤ 8 := by
  rcases xy with ⟨x, y⟩
  have hsub : neighboursOf c r (x, y) ⊆
      (({x - 1, x, x + 1} : Finset ℤ) ×ˢ ({y - 1, y, y + 1} : Finset ℤ)).erase (x, y) := by
    intro z hz
    unfold neighboursOf at hz
    rw [Finset.mem_filter] at hz
    exact Finset.mem_erase.2 ⟨hz.2.1, hz.1⟩
  refine (Finset.card_le_card hsub).trans ?_
  rw [Finset.card_erase_of_mem (by simp), Finset.card_product, tripleCard, tripleCard]

theorem neighboursOf_card_interior {c r x y : ℤ} (h1 : 1 ≤ x) (h2 : x ≤ c - 2)
    (h3 : 1 ≤ y) (h4 : y ≤ r - 2) : (neighboursOf c r (x, y)).card = 8 := by
  have heq : neighboursOf c r (x, y) =
      (({x - 1, x, x + 1} : Finset ℤ) ×ˢ ({y - 1, y, y + 1} : Finset ℤ)).erase (x, y) := by
    ext z
    rcases z with ⟨a, b⟩
    unfold neighboursOf
    rw [Finset.mem_filter, Finset.mem_erase]
    constructor
    · rintro ⟨hp, hne, -⟩
      exact ⟨hne, hp⟩
    · rintro ⟨hne, hp⟩
      refine ⟨hp, hne, ?_⟩
      rw [Finset.mem_product] at hp
      simp only [Finset.mem_insert, Finset.mem_singleton] at hp
      rw [mem_xysOf]
      obtain ⟨ha, hb⟩ := hp
      constructor <;> constructor <;> omega
  rw [heq, Finset.card_erase_of_mem (by simp), Finset.card_product, tripleCard, tripleCard]

theorem inv6_init (c r : ℤ) (d : ℚ) (draws : List Coord) : Inv6 (init c r d draws) := by
  refine ⟨?_, ?_, ?_⟩
  · show (∅ : Finset Coord) ⊆ xysOf c r
    simp
  · show (∅ : Finset Coord) ⊆ xysOf c r
    simp
  · intro z
    show (none : Option Near).isSome = true ↔ z ∈ (∅ : Finset Coord)
    simp

theorem init_mines_subset {c r : ℤ} {d : ℚ} {draws : List Coord}
    (hdraws : ∀ z ∈ draws, z ∈ xysOf c r) :
    (init c r d draws).mines ⊆ xysOf c r :=
  (placeMines_subset _ _).trans fun z hz => hdraws z (List.mem_toFinset.1 hz)

theorem init_mines_card {c r : ℤ} {d : ℚ} {draws : List Coord}
    (henough : (pyInt (d * (c : ℚ) * (r : ℚ))).toNat ≤ draws.toFinset.card) :
    ((init c r d draws).mines.card : ℤ) = pyInt (d * (c : ℚ) * (r : ℚ)) ∨
      pyInt (d * (c : ℚ) * (r : ℚ)) < 0 := by
  by_cases h : 0 ≤ pyInt (d * (c : ℚ) * (r : ℚ))
  · left
    show ((placeMines (pyInt (d * (c : ℚ) * (r : ℚ))).toNat draws).card : ℤ) = _
    rw [placeMines_card _ _ henough, Int.toNat_of_nonneg h]
  · right
    omega

theorem good_init {c r : ℤ} {d : ℚ} {draws : List Coord}
    (hc : 0 < c) (hr : 0 < r) (hd0 : 0 ≤ d)
    (hdraws : ∀ z ∈ draws, z ∈ xysOf c r)
    (henough : (pyInt (d * (c : ℚ) * (r : ℚ))).toNat ≤ draws.toFinset.card) :
    Good (init c r d draws) := by
  have hq : 0 ≤ d * (c : ℚ) * (r : ℚ) :=
    mul_nonneg (mul_nonneg hd0 (by exact_mod_cast hc.le)) (by exact_mod_cast hr.le)
  have htn : 0 ≤ pyInt (d * (c : ℚ) * (r : ℚ)) := pyInt_nonneg hq
  have hmsub := init_mines_subset (d := d) hdraws
  have hmcard : ((init c r d draws).mines.card : ℤ) = pyInt (d * (c : ℚ) * (r : ℚ)) := by
    rcases init_mines_card (d := d) henough with h | h
    · exact h
    · omega
  refine ⟨hmsub, ?_, ?_⟩
  · show c * r - pyInt (d * (c : ℚ) * (r : ℚ)) =
      ((xysOf c r \ (init c r d draws).mines).card : ℤ) -
        (((xysOf c r ∩ (∅ : Finset Coord)) \ (init c r d draws).mines).card : ℤ)
    rw [Finset.inter_empty, Finset.empty_sdiff, Finset.card_empty,
      Finset.card_sdiff hmsub]
    have hle : (init c r d draws).mines.card ≤ (xysOf c r).card :=
      Finset.card_le_card hmsub
    have hX : ((xysOf c r).card : ℤ) = c * r := xysOf_card c r hc.le hr.le
    push_cast [hle]
    omega
  · show (∅ : Finset Coord) ∩ (init c r d draws).mines ⊆ (∅ : Finset Coord)
    simp

theorem neighboursOf_eq_filter (c r : ℤ) (zw : Coord) :
    neighboursOf c r zw = (xysOf c r).filter (fun z => chebDist z zw = 1) := by
  ext z
  rw [mem_neighboursOf, Finset.mem_filter]

theorem pyInt_zero_mul (a b : ℚ) : pyInt (0 * a * b) = 0 := by
  norm_num [pyInt]

theorem pyInt_zero : pyInt 0 = 0 := by
  norm_num [pyInt]

theorem pyInt_quarter_two_two : pyInt ((4 : ℚ)⁻¹ * 2 * 2) = 1 := by
  norm_num [pyInt]

theorem quarter_nonneg : (0 : ℚ) ≤ 1 / 4 := by norm_num

theorem quarter_lt_one : (1 / 4 : ℚ) < 1 := by norm_num

theorem neg_half_lt_zero : (-(1 / 2) : ℚ) < 0 := by norm_num

/-- C5: for every board and every in-bounds coordinate `xy`, the
precomputed `neighbours[xy]` is exactly the set of in-bounds coordinates
at Chebyshev distance 1 from `xy`: it excludes `xy` itself, contains only
in-bounds coordinates, has at most 8 elements, and exactly 8 when `xy`
touches no edge of the board. -/
theorem C5_neighbours (g : MineSweeper) (xy : Coord) (hxy : xy ∈ g.xys) :
    g.neighbours xy = some (neighboursOf g.columns g.rows xy) ∧
    (∀ zw, zw ∈ neighboursOf g.columns g.rows xy ↔
      zw ∈ g.xys ∧ chebDist zw xy = 1) ∧
    xy ∉ neighboursOf g.columns g.rows xy ∧
    neighboursOf g.columns g.rows xy ⊆ g.xys ∧
    (neighboursOf g.columns g.rows xy).card ≤ 8 ∧
    (1 ≤ xy.1 → xy.1 ≤ g.columns - 2 → 1 ≤ xy.2 → xy.2 ≤ g.rows - 2 →
      (neighboursOf g.columns g.rows xy).card = 8) := by
  refine ⟨?_, ?_, not_mem_neighboursOf_self _ _ _, ?_, neighboursOf_card_le _ _ _, ?_⟩
  · rw [MineSweeper.neighbours, if_pos hxy]
  · intro zw
    exact mem_neighboursOf
  · intro z hz
    exact (mem_neighboursOf.1 hz).1
  · intro h1 h2 h3 h4
    rcases xy with ⟨x, y⟩
    exact neighboursOf_card_interior h1 h2 h3 h4

/-- Witness for C5 on a 3x3 board at its interior coordinate (1, 1). -/
theorem C5_neighbours_witness :
    ((1, 1) : Coord) ∈ (init 3 3 0 []).xys ∧
    ((init 3 3 0 []).neighbours (1, 1) =
      some (neighboursOf (init 3 3 0 []).columns (init 3 3 0 []).rows (1, 1)) ∧
    (∀ zw, zw ∈ neighboursOf (init 3 3 0 []).columns (init 3 3 0 []).rows (1, 1) ↔
      zw ∈ (init 3 3 0 []).xys ∧ chebDist zw ((1, 1) : Coord) = 1) ∧
    ((1, 1) : Coord) ∉ neighboursOf (init 3 3 0 []).columns (init 3 3 0 []).rows (1, 1) ∧
    neighboursOf (init 3 3 0 []).columns (init 3 3 0 []).rows (1, 1) ⊆ (init 3 3 0 []).xys ∧
    (neighboursOf (init 3 3 0 []).columns (init 3 3 0 []).rows (1, 1)).card ≤ 8 ∧
    (1 ≤ ((1, 1) : Coord).1 → ((1, 1) : Coord).1 ≤ (init 3 3 0 []).columns - 2 →
      1 ≤ ((1, 1) : Coord).2 → ((1, 1) : Coord).2 ≤ (init 3 3 0 []).rows - 2 →
      (neighboursOf (init 3 3 0 []).columns (init 3 3 0 []).rows (1, 1)).card = 8)) :=
  ⟨by decide, C5_neighbours (init 3 3 0 []) (1, 1) (by decide)⟩

/-- C4: for every board constructed with positive dimensions and density
in `[0, 1)` (with the random stream supplying enough distinct in-bounds
draws for the sampling loop to terminate), the mine set has exactly
`floor(density * columns * rows)` elements — pairwise distinct since it
is a set — and every mine is in bounds. -/
theorem C4_mines (c r : ℤ) (d : ℚ) (draws : List Coord)
    (hc : 0 < c) (hr : 0 < r) (hd0 : 0 ≤ d) (_hd1 : d < 1)
    (hdraws : ∀ z ∈ draws, z ∈ xysOf c r)
    (henough : (pyInt (d * (c : ℚ) * (r : ℚ))).toNat ≤ draws.toFinset.card) :
    (((init c r d draws).mines.card : ℤ) = ⌊d * (c : ℚ) * (r : ℚ)⌋) ∧
    (init c r d draws).mines ⊆ (init c r d draws).xys := by
  have hq : 0 ≤ d * (c : ℚ) * (r : ℚ) :=
    mul_nonneg (mul_nonneg hd0 (by exact_mod_cast hc.le)) (by exact_mod_cast hr.le)
  constructor
  · rcases init_mines_card (d := d) henough with h | h
    · rw [h, pyInt_of_nonneg hq]
    · exact absurd (pyInt_nonneg hq) (by omega)
  · exact init_mines_subset hdraws

/-- Witness for C4: a 2x2 board with density 1/4 and one draw. -/
theorem C4_mines_witness :
    (0 : ℤ) < 2 ∧ (0 : ℤ) < 2 ∧ (0 : ℚ) ≤ 1 / 4 ∧ (1 / 4 : ℚ) < 1 ∧
    (∀ z ∈ [((0, 0) : Coord)], z ∈ xysOf 2 2) ∧
    (pyInt ((1 / 4 : ℚ) * ((2 : ℤ) : ℚ) * ((2 : ℤ) : ℚ))).toNat ≤
      [((0, 0) : Coord)].toFinset.card ∧
    ((((init 2 2 (1 / 4) [(0, 0)]).mines.card : ℤ) =
      ⌊(1 / 4 : ℚ) * ((2 : ℤ) : ℚ) * ((2 : ℤ) : ℚ)⌋) ∧
    (init 2 2 (1 / 4) [(0, 0)]).mines ⊆ (init 2 2 (1 / 4) [(0, 0)]).xys) :=
  ⟨by decide, by decide, quarter_nonneg, quarter_lt_one, by decide,
    by simp [pyInt_quarter_two_two],
    C4_mines 2 2 (1 / 4) [(0, 0)] (by decide) (by decide) quarter_nonneg quarter_lt_one
      (by decide) (by simp [pyInt_quarter_two_two])⟩

theorem openCell_safe_result {g : MineSweeper} {zw : Coord}
    (h1 : zw ∉ g.opened) (h2 : zw ∉ g.mines) (h3 : zw ∈ g.xys) :
    (openCell g zw).1.mines_near zw =
      some (Near.count ((g.xys.filter (fun z => chebDist z zw = 1) ∩ g.mines).card)) ∧
    (openCell g zw).2 ≠ Outcome.lost := by
  rw [openCell_safe h1 h2 h3]
  constructor
  · show (if zw = zw then
        some (Near.count ((neighboursOf g.columns g.rows zw ∩ g.mines).card))
      else g.mines_near zw) = _
    rw [if_pos rfl, neighboursOf_eq_filter]
    rfl
  · split_ifs <;> simp

/-- C3: opening an unopened mine stores the `'mine'` sentinel, adds the
square to `flagged`, leaves `empty_remaining` unchanged and signals Loss;
afterwards opening a distinct unopened in-bounds safe square stores the
correct neighbour-mine count (the number of mines at Chebyshev distance 1)
and does not signal Loss. -/
theorem C3_mine_then_safe (g : MineSweeper) (xy zw : Coord)
    (hm : xy ∈ g.mines) (ho : xy ∉ g.opened)
    (hzx : zw ∈ g.xys) (hzm : zw ∉ g.mines) (hzo : zw ∉ g.opened) (hne : zw ≠ xy) :
    (openCell g xy).2 = Outcome.lost ∧
    (openCell g xy).1.mines_near xy = some Near.mine ∧
    xy ∈ (openCell g xy).1.flagged ∧
    (openCell g xy).1.empty_remaining = g.empty_remaining ∧
    (openCell (openCell g xy).1 zw).2 ≠ Outcome.lost ∧
    (openCell (openCell g xy).1 zw).1.mines_near zw =
      some (Near.count ((g.xys.filter (fun z => chebDist z zw = 1) ∩ g.mines).card)) := by
  have h1 : zw ∉ (openCell g xy).1.opened := by
    rw [openCell_mine ho hm]
    show zw ∉ insert xy g.opened
    simp [hzo, hne]
  have h2 : zw ∉ (openCell g xy).1.mines := by
    rw [openCell_mine ho hm]
    exact hzm
  have h3 : zw ∈ (openCell g xy).1.xys := by
    rw [openCell_mine ho hm]
    exact hzx
  have hsafe := openCell_safe_result h1 h2 h3
  have hxys : (openCell g xy).1.xys = g.xys := by
    rw [openCell_mine ho hm]
    rfl
  have hmines : (openCell g xy).1.mines = g.mines := by
    rw [openCell_mine ho hm]
  rw [hxys, hmines] at hsafe
  refine ⟨?_, ?_, ?_, ?_, hsafe.2, hsafe.1⟩
  · rw [openCell_mine ho hm]
  · rw [openCell_mine ho hm]
    show (if xy = xy then some Near.mine else g.mines_near xy) = some Near.mine
    rw [if_pos rfl]
  · rw [openCell_mine ho hm]
    exact Finset.mem_insert_self _ _
  · rw [openCell_mine ho hm]

/-- Witness for C3 on a 2x1 board whose single mine is at (0, 0). -/
theorem C3_mine_then_safe_witness :
    ((0, 0) : Coord) ∈ (MineSweeper.mk 2 1 {(0, 0)} ∅ ∅ (fun _ => none) 1).mines ∧
    ((0, 0) : Coord) ∉ (MineSweeper.mk 2 1 {(0, 0)} ∅ ∅ (fun _ => none) 1).opened ∧
    ((1, 0) : Coord) ∈ (MineSweeper.mk 2 1 {(0, 0)} ∅ ∅ (fun _ => none) 1).xys ∧
    ((1, 0) : Coord) ∉ (MineSweeper.mk 2 1 {(0, 0)} ∅ ∅ (fun _ => none) 1).mines ∧
    ((openCell (MineSweeper.mk 2 1 {(0, 0)} ∅ ∅ (fun _ => none) 1) (0, 0)).2 =
        Outcome.lost ∧
      (openCell (MineSweeper.mk 2 1 {(0, 0)} ∅ ∅ (fun _ => none) 1)
        (0, 0)).1.mines_near (0, 0) = some Near.mine ∧
      ((0, 0) : Coord) ∈ (openCell (MineSweeper.mk 2 1 {(0, 0)} ∅ ∅ (fun _ => none) 1)
        (0, 0)).1.flagged ∧
      (openCell (MineSweeper.mk 2 1 {(0, 0)} ∅ ∅ (fun _ => none) 1)
        (0, 0)).1.empty_remaining =
        (MineSweeper.mk 2 1 {(0, 0)} ∅ ∅ (fun _ => none) 1).empty_remaining ∧
      (openCell (openCell (MineSweeper.mk 2 1 {(0, 0)} ∅ ∅ (fun _ => none) 1)
        (0, 0)).1 (1, 0)).2 ≠ Outcome.lost ∧
      (openCell (openCell (MineSweeper.mk 2 1 {(0, 0)} ∅ ∅ (fun _ => none) 1)
        (0, 0)).1 (1, 0)).1.mines_near (1, 0) =
        some (Near.count (((MineSweeper.mk 2 1 {(0, 0)} ∅ ∅ (fun _ => none) 1).xys.filter
            (fun z => chebDist z (1, 0) = 1) ∩
          (MineSweeper.mk 2 1 {(0, 0)} ∅ ∅ (fun _ => none) 1).mines).card))) :=
  ⟨by decide, by decide, by decide, by decide,
    C3_mine_then_safe _ (0, 0) (1, 0) (by decide) (by decide) (by decide) (by decide)
      (by decide) (by decide)⟩

/-- C10: opening an out-of-bounds, not-yet-opened coordinate first adds it
to `opened` and only then raises `KeyError` from the neighbour lookup,
leaving the board with the coordinate in `opened` but no `mines_near`
entry and everything else unchanged; a second `open` of the same
coordinate returns silently with no state change. -/
theorem C10_oob_open (g : MineSweeper) (xy : Coord)
    (hxys : xy ∉ g.xys) (hop : xy ∉ g.opened) (hmb : g.mines ⊆ g.xys)
    (hk : ∀ z, (g.mines_near z).isSome = true → z ∈ g.opened) :
    (openCell g xy).2 = Outcome.keyError ∧
    (openCell g xy).1.opened = insert xy g.opened ∧
    (openCell g xy).1.mines_near = g.mines_near ∧
    (openCell g xy).1.mines_near xy = none ∧
    (openCell g xy).1.flagged = g.flagged ∧
    (openCell g xy).1.empty_remaining = g.empty_remaining ∧
    openCell (openCell g xy).1 xy = ((openCell g xy).1, Outcome.quiet) := by
  have hm : xy ∉ g.mines := fun h => hxys (hmb h)
  rw [openCell_oob hop hm hxys]
  refine ⟨rfl, rfl, rfl, ?_, rfl, rfl, ?_⟩
  · show g.mines_near xy = none
    cases hmn : g.mines_near xy with
    | none => rfl
    | some v => exact absurd (hk xy (by rw [hmn]; rfl)) hop
  · exact openCell_opened (Finset.mem_insert_self _ _)

/-- Witness for C10: a 1x1 board and the out-of-bounds coordinate (5, 5). -/
theorem C10_oob_open_witness :
    ((5, 5) : Coord) ∉ (MineSweeper.mk 1 1 ∅ ∅ ∅ (fun _ => none) 1).xys ∧
    ((5, 5) : Coord) ∉ (MineSweeper.mk 1 1 ∅ ∅ ∅ (fun _ => none) 1).opened ∧
    ((openCell (MineSweeper.mk 1 1 ∅ ∅ ∅ (fun _ => none) 1) (5, 5)).2 =
        Outcome.keyError ∧
      (openCell (MineSweeper.mk 1 1 ∅ ∅ ∅ (fun _ => none) 1) (5, 5)).1.opened =
        insert (5, 5) (∅ : Finset Coord) ∧
      openCell (openCell (MineSweeper.mk 1 1 ∅ ∅ ∅ (fun _ => none) 1) (5, 5)).1 (5, 5) =
        ((openCell (MineSweeper.mk 1 1 ∅ ∅ ∅ (fun _ => none) 1) (5, 5)).1,
          Outcome.quiet)) := by
  have h := C10_oob_open (MineSweeper.mk 1 1 ∅ ∅ ∅ (fun _ => none) 1)
    (5, 5) (by decide) (by decide) (by decide) (by simp)
  exact ⟨by decide, by decide, h.1, h.2.1, h.2.2.2.2.2.2⟩

/-- C1: after any sequence of operations on in-bounds coordinates, the
`empty_remaining` counter equals (total cells − mine count) − (number of
opened non-mine cells), is never negative, and is zero exactly when every
in-bounds non-mine cell has been opened. -/
theorem C1_remaining (c r : ℤ) (d : ℚ) (draws : List Coord) (ops : List Op)
    (hc : 0 < c) (hr : 0 < r) (hd0 : 0 ≤ d) (_hd1 : d < 1)
    (hdraws : ∀ z ∈ draws, z ∈ xysOf c r)
    (henough : (pyInt (d * (c : ℚ) * (r : ℚ))).toNat ≤ draws.toFinset.card)
    (hops : ∀ op ∈ ops, op.xy ∈ xysOf c r) :
    (run (init c r d draws) ops).empty_remaining =
      (c * r - ((run (init c r d draws) ops).mines.card : ℤ)) -
        (((run (init c r d draws) ops).opened \
          (run (init c r d draws) ops).mines).card : ℤ) ∧
    0 ≤ (run (init c r d draws) ops).empty_remaining ∧
    ((run (init c r d draws) ops).empty_remaining = 0 ↔
      xysOf c r \ (run (init c r d draws) ops).mines ⊆
        (run (init c r d draws) ops).opened) := by
  have hgood : Good (run (init c r d draws) ops) :=
    good_run (good_init hc hr hd0 hdraws henough) ops
  have h6 : Inv6 (run (init c r d draws) ops) :=
    inv6_run (inv6_init c r d draws) hops
  obtain ⟨hm, hrem, -⟩ := hgood
  obtain ⟨hosub, -, -⟩ := h6
  have hxys : (run (init c r d draws) ops).xys = xysOf c r := run_xys _ _
  rw [hxys] at hrem hm hosub
  have hio : xysOf c r ∩ (run (init c r d draws) ops).opened =
      (run (init c r d draws) ops).opened := Finset.inter_eq_right.2 hosub
  rw [hio] at hrem
  have hsub1 : (run (init c r d draws) ops).opened \ (run (init c r d draws) ops).mines ⊆
      xysOf c r \ (run (init c r d draws) ops).mines :=
    Finset.sdiff_subset_sdiff hosub (Finset.Subset.refl _)
  have hcle : ((run (init c r d draws) ops).opened \
      (run (init c r d draws) ops).mines).card ≤
      (xysOf c r \ (run (init c r d draws) ops).mines).card :=
    Finset.card_le_card hsub1
  have hXc : ((xysOf c r).card : ℤ) = c * r := xysOf_card c r hc.le hr.le
  have hmle : (run (init c r d draws) ops).mines.card ≤ (xysOf c r).card :=
    Finset.card_le_card hm
  have hsd : (xysOf c r \ (run (init c r d draws) ops).mines).card =
      (xysOf c r).card - (run (init c r d draws) ops).mines.card :=
    Finset.card_sdiff hm
  refine ⟨?_, ?_, ?_⟩
  · rw [hrem, hsd]
    push_cast [Nat.cast_sub hmle] at hXc ⊢
    omega
  · rw [hrem]
    have : ((run (init c r d draws) ops).opened \
        (run (init c r d draws) ops).mines).card ≤
        (xysOf c r \ (run (init c r d draws) ops).mines).card := hcle
    omega
  · rw [hrem]
    constructor
    · intro h0
      have hcge : (xysOf c r \ (run (init c r d draws) ops).mines).card ≤
          ((run (init c r d draws) ops).opened \
            (run (init c r d draws) ops).mines).card := by omega
      have heq := Finset.eq_of_subset_of_card_le hsub1 hcge
      intro z hz
      rw [← heq] at hz
      exact (Finset.mem_sdiff.1 hz).1
    · intro hsub2
      have hsub3 : xysOf c r \ (run (init c r d draws) ops).mines ⊆
          (run (init c r d draws) ops).opened \ (run (init c r d draws) ops).mines := by
        intro z hz
        exact Finset.mem_sdiff.2 ⟨hsub2 hz, (Finset.mem_sdiff.1 hz).2⟩
      have := Finset.card_le_card hsub3
      omega

/-- Witness for C1: a 1x1 density-0 board opened once. -/
theorem C1_remaining_witness :
    (0 : ℤ) < 1 ∧ (0 : ℤ) < 1 ∧ (0 : ℚ) ≤ 0 ∧ (0 : ℚ) < 1 ∧
    (∀ z ∈ ([] : List Coord), z ∈ xysOf 1 1) ∧
    (pyInt ((0 : ℚ) * ((1 : ℤ) : ℚ) * ((1 : ℤ) : ℚ))).toNat ≤
      ([] : List Coord).toFinset.card ∧
    (∀ op ∈ [Op.openOp ((0, 0) : Coord)], op.xy ∈ xysOf 1 1) ∧
    ((run (init 1 1 0 []) [Op.openOp (0, 0)]).empty_remaining =
      (1 * 1 - ((run (init 1 1 0 []) [Op.openOp (0, 0)]).mines.card : ℤ)) -
        (((run (init 1 1 0 []) [Op.openOp (0, 0)]).opened \
          (run (init 1 1 0 []) [Op.openOp (0, 0)]).mines).card : ℤ) ∧
    0 ≤ (run (init 1 1 0 []) [Op.openOp (0, 0)]).empty_remaining ∧
    ((run (init 1 1 0 []) [Op.openOp (0, 0)]).empty_remaining = 0 ↔
      xysOf 1 1 \ (run (init 1 1 0 []) [Op.openOp (0, 0)]).mines ⊆
        (run (init 1 1 0 []) [Op.openOp (0, 0)]).opened)) :=
  ⟨by decide, by decide, by decide, by decide, by simp, by simp [pyInt_zero],
    by decide,
    C1_remaining 1 1 0 [] [Op.openOp (0, 0)] (by decide) (by decide) (by decide)
      (by decide) (by simp) (by simp [pyInt_zero]) (by decide)⟩

/-- C2: the Win event is signaled at most once per run, and a step
signals Win exactly when it is an `open` of the last unopened in-bounds
non-mine cell; on the 4x1 density-0 board, opening (0, 0) leaves
`empty_remaining` at 3 and signals no Win. -/
theorem C2_win_once (c r : ℤ) (d : ℚ) (draws : List Coord) (ops : List Op)
    (hc : 0 < c) (hr : 0 < r) (hd0 : 0 ≤ d) (_hd1 : d < 1)
    (hdraws : ∀ z ∈ draws, z ∈ xysOf c r)
    (henough : (pyInt (d * (c : ℚ) * (r : ℚ))).toNat ≤ draws.toFinset.card) :
    (trace (init c r d draws) ops).countP isWon ≤ 1 ∧
    (∀ l1 op l2, ops = l1 ++ op :: l2 →
      ((step (run (init c r d draws) l1) op).2 = Outcome.won ↔
        ∃ xy, op = Op.openOp xy ∧ xy ∈ xysOf c r ∧
          xy ∉ (run (init c r d draws) l1).mines ∧
          xy ∉ (run (init c r d draws) l1).opened ∧
          xysOf c r \ (run (init c r d draws) l1).mines ⊆
            insert xy (run (init c r d draws) l1).opened)) ∧
    (run (init 4 1 0 []) [Op.openOp (0, 0)]).empty_remaining = 3 ∧
    (trace (init 4 1 0 []) [Op.openOp (0, 0)]).countP isWon = 0 := by
  have hgood0 : Good (init c r d draws) := good_init hc hr hd0 hdraws henough
  have hrem0 : (init 4 1 0 []).empty_remaining = 4 := by
    show 4 * 1 - pyInt (0 * ((4 : ℤ) : ℚ) * ((1 : ℤ) : ℚ)) = 4
    rw [pyInt_zero_mul]
    norm_num
  have h1 : ((0, 0) : Coord) ∉ (init 4 1 0 []).opened := Finset.not_mem_empty _
  have h2 : ((0, 0) : Coord) ∉ (init 4 1 0 []).mines := Finset.not_mem_empty _
  have h3 : ((0, 0) : Coord) ∈ (init 4 1 0 []).xys := by decide
  have hopen := openCell_safe h1 h2 h3
  have hgt : ¬((init 4 1 0 []).empty_remaining - 1 ≤ 0) := by
    rw [hrem0]
    norm_num
  refine ⟨trace_won_le_one hgood0 ops, ?_, ?_, ?_⟩
  · intro l1 op l2 hdec
    have hg : Good (run (init c r d draws) l1) := good_run hgood0 l1
    have hiff := won_iff hg op
    have hx : (run (init c r d draws) l1).xys = xysOf c r := run_xys _ _
    rw [hx] at hiff
    exact hiff
  · show (openCell (init 4 1 0 []) (0, 0)).1.empty_remaining = 3
    rw [hopen]
    show (init 4 1 0 []).empty_remaining - 1 = 3
    rw [hrem0]
    norm_num
  · show List.countP isWon [(openCell (init 4 1 0 []) (0, 0)).2] = 0
    rw [hopen]
    show List.countP isWon [if (init 4 1 0 []).empty_remaining - 1 ≤ 0
      then Outcome.won else Outcome.quiet] = 0
    rw [if_neg hgt]
    rfl

/-- Witness for C2: a 1x1 density-0 board opened once. -/
theorem C2_win_once_witness :
    (0 : ℤ) < 1 ∧ (0 : ℤ) < 1 ∧ (0 : ℚ) ≤ 0 ∧ (0 : ℚ) < 1 ∧
    (∀ z ∈ ([] : List Coord), z ∈ xysOf 1 1) ∧
    (pyInt ((0 : ℚ) * ((1 : ℤ) : ℚ) * ((1 : ℤ) : ℚ))).toNat ≤
      ([] : List Coord).toFinset.card ∧
    ((trace (init 1 1 0 []) [Op.openOp (0, 0)]).countP isWon ≤ 1 ∧
    (∀ l1 op l2, [Op.openOp ((0, 0) : Coord)] = l1 ++ op :: l2 →
      ((step (run (init 1 1 0 []) l1) op).2 = Outcome.won ↔
        ∃ xy, op = Op.openOp xy ∧ xy ∈ xysOf 1 1 ∧
          xy ∉ (run (init 1 1 0 []) l1).mines ∧
          xy ∉ (run (init 1 1 0 []) l1).opened ∧
          xysOf 1 1 \ (run (init 1 1 0 []) l1).mines ⊆
            insert xy (run (init 1 1 0 []) l1).opened)) ∧
    (run (init 4 1 0 []) [Op.openOp (0, 0)]).empty_remaining = 3 ∧
    (trace (init 4 1 0 []) [Op.openOp (0, 0)]).countP isWon = 0) :=
  ⟨by decide, by decide, by decide, by decide, by simp, by simp [pyInt_zero],
    C2_win_once 1 1 0 [] [Op.openOp (0, 0)] (by decide) (by decide) (by decide)
      (by decide) (by simp) (by simp [pyInt_zero])⟩

theorem placeMines_zero (draws : List Coord) : placeMines 0 draws = ∅ := by
  rw [placeMines_eq_foldl]
  exact foldl_place_stop 0 draws ∅ (Nat.le_refl 0)

/-- C6 counterexample: from a state satisfying the invariants, `flag` on
the out-of-bounds coordinate (5, 5) of a 1x1 board produces a state in
which Flagged is no longer a subset of the board, so not every operation
preserves the invariants. -/
theorem C6_counterexample :
    Inv6 (init 1 1 0 []) ∧ ¬ Inv6 (flag (init 1 1 0 []) (5, 5)) := by
  refine ⟨inv6_init 1 1 0 [], fun h => ?_⟩
  have h1 : ((5, 5) : Coord) ∈ (flag (init 1 1 0 []) (5, 5)).flagged :=
    Finset.mem_insert_self _ _
  have h2 : ((5, 5) : Coord) ∈ xysOf 1 1 := h.2.1 h1
  rw [mem_xysOf] at h2
  omega

/-- C6 (amended): every mutating operation invoked on an in-bounds
coordinate preserves the invariants (Opened within the board, Flagged
within the board, key set of MinesNear equal to Opened); Opened never
shrinks, existing MinesNear entries never change, and a second `open` of
an already-opened square returns the state unchanged with no event. -/
theorem C6_invariants (g : MineSweeper) (xy : Coord)
    (h6 : Inv6 g) (hxy : xy ∈ g.xys) :
    Inv6 (openCell g xy).1 ∧ Inv6 (flag g xy) ∧ Inv6 (rightClicked g xy) ∧
    g.opened ⊆ (openCell g xy).1.opened ∧
    (flag g xy).opened = g.opened ∧ (rightClicked g xy).opened = g.opened ∧
    (∀ z v, g.mines_near z = some v → (openCell g xy).1.mines_near z = some v) ∧
    (flag g xy).mines_near = g.mines_near ∧
    (rightClicked g xy).mines_near = g.mines_near ∧
    (xy ∈ g.opened → openCell g xy = (g, Outcome.quiet)) :=
  ⟨inv6_openCell h6 hxy, inv6_flag h6 hxy, inv6_rightClicked h6 hxy,
    (openCell_frame g xy).2.2.2, rfl, (rightClicked_frame g xy).2.2.2.1,
    openCell_mines_near_mono h6.2.2, rfl, (rightClicked_frame g xy).2.2.2.2.1,
    fun h => openCell_opened h⟩

/-- Witness for C6 on a 1x1 board at its only coordinate. -/
theorem C6_invariants_witness :
    Inv6 (MineSweeper.mk 1 1 ∅ ∅ ∅ (fun _ => none) 1) ∧
    ((0, 0) : Coord) ∈ (MineSweeper.mk 1 1 ∅ ∅ ∅ (fun _ => none) 1).xys ∧
    (Inv6 (openCell (MineSweeper.mk 1 1 ∅ ∅ ∅ (fun _ => none) 1) (0, 0)).1 ∧
    Inv6 (flag (MineSweeper.mk 1 1 ∅ ∅ ∅ (fun _ => none) 1) (0, 0)) ∧
    Inv6 (rightClicked (MineSweeper.mk 1 1 ∅ ∅ ∅ (fun _ => none) 1) (0, 0)) ∧
    (MineSweeper.mk 1 1 ∅ ∅ ∅ (fun _ => none) 1).opened ⊆
      (openCell (MineSweeper.mk 1 1 ∅ ∅ ∅ (fun _ => none) 1) (0, 0)).1.opened ∧
    (flag (MineSweeper.mk 1 1 ∅ ∅ ∅ (fun _ => none) 1) (0, 0)).opened =
      (MineSweeper.mk 1 1 ∅ ∅ ∅ (fun _ => none) 1).opened ∧
    (rightClicked (MineSweeper.mk 1 1 ∅ ∅ ∅ (fun _ => none) 1) (0, 0)).opened =
      (MineSweeper.mk 1 1 ∅ ∅ ∅ (fun _ => none) 1).opened ∧
    (∀ z v, (MineSweeper.mk 1 1 ∅ ∅ ∅ (fun _ => none) 1).mines_near z = some v →
      (openCell (MineSweeper.mk 1 1 ∅ ∅ ∅ (fun _ => none) 1) (0, 0)).1.mines_near z =
        some v) ∧
    (flag (MineSweeper.mk 1 1 ∅ ∅ ∅ (fun _ => none) 1) (0, 0)).mines_near =
      (MineSweeper.mk 1 1 ∅ ∅ ∅ (fun _ => none) 1).mines_near ∧
    (rightClicked (MineSweeper.mk 1 1 ∅ ∅ ∅ (fun _ => none) 1) (0, 0)).mines_near =
      (MineSweeper.mk 1 1 ∅ ∅ ∅ (fun _ => none) 1).mines_near ∧
    (((0, 0) : Coord) ∈ (MineSweeper.mk 1 1 ∅ ∅ ∅ (fun _ => none) 1).opened →
      openCell (MineSweeper.mk 1 1 ∅ ∅ ∅ (fun _ => none) 1) (0, 0) =
        (MineSweeper.mk 1 1 ∅ ∅ ∅ (fun _ => none) 1, Outcome.quiet))) :=
  ⟨⟨by decide, by decide, fun z => by simp⟩, by decide,
    C6_invariants (MineSweeper.mk 1 1 ∅ ∅ ∅ (fun _ => none) 1) (0, 0)
      ⟨by decide, by decide, fun z => by simp⟩ (by decide)⟩

/-- C8 counterexample: on a 1x1 board, `flag((5, 5))` with (5, 5) out of
bounds completes normally and records the out-of-bounds flag — the
operation is accepted silently instead of signaling an error. -/
theorem C8_counterexample :
    (flag (init 1 1 0 []) (5, 5)).flagged = {(5, 5)} ∧
    ((5, 5) : Coord) ∉ (init 1 1 0 []).xys := by
  constructor
  · show insert ((5, 5) : Coord) ∅ = {(5, 5)}
    simp
  · decide

/-- C8 (amended): for an out-of-bounds coordinate, only `open` signals an
error (the `KeyError` escaping the neighbour lookup); `flag` silently adds
the coordinate to Flagged, and the right-click handler on an unflagged
out-of-bounds coordinate silently flags it. -/
theorem C8_oob (g : MineSweeper) (xy : Coord)
    (hxys : xy ∉ g.xys) (hop : xy ∉ g.opened) (hmb : g.mines ⊆ g.xys) :
    (openCell g xy).2 = Outcome.keyError ∧
    (flag g xy).flagged = insert xy g.flagged ∧
    (xy ∉ g.flagged → rightClicked g xy = flag g xy) := by
  have hm : xy ∉ g.mines := fun h => hxys (hmb h)
  refine ⟨?_, rfl, fun h => ?_⟩
  · rw [openCell_oob hop hm hxys]
  · unfold rightClicked
    rw [if_pos h]

/-- Witness for C8: a 1x1 board and the out-of-bounds coordinate (5, 5). -/
theorem C8_oob_witness :
    ((5, 5) : Coord) ∉ (MineSweeper.mk 1 1 ∅ ∅ ∅ (fun _ => none) 1).xys ∧
    ((5, 5) : Coord) ∉ (MineSweeper.mk 1 1 ∅ ∅ ∅ (fun _ => none) 1).opened ∧
    (MineSweeper.mk 1 1 ∅ ∅ ∅ (fun _ => none) 1).mines ⊆
      (MineSweeper.mk 1 1 ∅ ∅ ∅ (fun _ => none) 1).xys ∧
    ((openCell (MineSweeper.mk 1 1 ∅ ∅ ∅ (fun _ => none) 1) (5, 5)).2 =
        Outcome.keyError ∧
      (flag (MineSweeper.mk 1 1 ∅ ∅ ∅ (fun _ => none) 1) (5, 5)).flagged =
        insert (5, 5) (MineSweeper.mk 1 1 ∅ ∅ ∅ (fun _ => none) 1).flagged ∧
      (((5, 5) : Coord) ∉ (MineSweeper.mk 1 1 ∅ ∅ ∅ (fun _ => none) 1).flagged →
        rightClicked (MineSweeper.mk 1 1 ∅ ∅ ∅ (fun _ => none) 1) (5, 5) =
          flag (MineSweeper.mk 1 1 ∅ ∅ ∅ (fun _ => none) 1) (5, 5))) :=
  ⟨by decide, by decide, by decide,
    C8_oob (MineSweeper.mk 1 1 ∅ ∅ ∅ (fun _ => none) 1) (5, 5)
      (by decide) (by decide) (by decide)⟩

/-- C9 counterexample: the source's only flag-removal path is the GUI
right-click handler, and it is not a plain set removal: on a coordinate
absent from Flagged it adds a flag instead of being a no-op, and on a
flagged opened mine it refuses to remove the flag. -/
theorem C9_counterexample :
    (rightClicked (init 1 1 0 []) (0, 0)).flagged = {(0, 0)} ∧
    (init 1 1 0 []).flagged = ∅ ∧
    (rightClicked
      (MineSweeper.mk 1 1 {(0, 0)} {(0, 0)} {(0, 0)} (fun _ => some Near.mine) 0)
      (0, 0)).flagged = {(0, 0)} := by
  refine ⟨?_, rfl, ?_⟩
  · unfold rightClicked
    rw [if_pos (show ((0, 0) : Coord) ∉ (init 1 1 0 []).flagged from
      Finset.not_mem_empty _)]
    show insert ((0, 0) : Coord) ∅ = {(0, 0)}
    simp
  · unfold rightClicked
    rw [if_neg (by simp), if_pos (by simp)]

/-- C9 (amended): in any state where every opened mine is flagged (an
invariant of all reachable states), flagging a previously unflagged
coordinate and then right-clicking it restores Flagged to its previous
value. -/
theorem C9_unflag_roundtrip (g : MineSweeper) (xy : Coord)
    (hfl : g.opened ∩ g.mines ⊆ g.flagged) (hxy : xy ∉ g.flagged) :
    (rightClicked (flag g xy) xy).flagged = g.flagged := by
  have h1 : ¬ xy ∉ (flag g xy).flagged := by
    simp [flag]
  unfold rightClicked
  rw [if_neg h1]
  have h2 : ¬(xy ∈ (flag g xy).opened ∧ xy ∈ (flag g xy).mines) := by
    rintro ⟨ho, hm⟩
    exact hxy (hfl (Finset.mem_inter.2 ⟨ho, hm⟩))
  rw [if_neg h2]
  show (insert xy g.flagged).erase xy = g.flagged
  exact Finset.erase_insert hxy

/-- Witness for C9 on a fresh 1x1 board. -/
theorem C9_unflag_roundtrip_witness :
    (MineSweeper.mk 1 1 ∅ ∅ ∅ (fun _ => none) 1).opened ∩
      (MineSweeper.mk 1 1 ∅ ∅ ∅ (fun _ => none) 1).mines ⊆
      (MineSweeper.mk 1 1 ∅ ∅ ∅ (fun _ => none) 1).flagged ∧
    ((0, 0) : Coord) ∉ (MineSweeper.mk 1 1 ∅ ∅ ∅ (fun _ => none) 1).flagged ∧
    (rightClicked (flag (MineSweeper.mk 1 1 ∅ ∅ ∅ (fun _ => none) 1) (0, 0))
      (0, 0)).flagged = (MineSweeper.mk 1 1 ∅ ∅ ∅ (fun _ => none) 1).flagged :=
  ⟨by decide, by decide,
    C9_unflag_roundtrip (MineSweeper.mk 1 1 ∅ ∅ ∅ (fun _ => none) 1) (0, 0)
      (by decide) (by decide)⟩

/-- C7 counterexample: constructing with columns = 0 (a non-positive
dimension) raises nothing — `__init__` contains no validation code — and
yields a degenerate board with an empty cell set, no mines, and
`empty_remaining` 0. -/
theorem C7_counterexample :
    (init 0 16 (1 / 5) []).xys = ∅ ∧ (init 0 16 (1 / 5) []).mines = ∅ ∧
    (init 0 16 (1 / 5) []).opened = ∅ ∧ (init 0 16 (1 / 5) []).flagged = ∅ ∧
    (init 0 16 (1 / 5) []).empty_remaining = 0 := by
  refine ⟨?_, rfl, rfl, rfl, ?_⟩
  · show xysOf 0 16 = ∅
    rw [xysOf, Finset.Ico_self, Finset.empty_product]
  · show 0 * 16 - pyInt ((1 / 5 : ℚ) * ((0 : ℤ) : ℚ) * ((16 : ℤ) : ℚ)) = 0
    have hq : (1 / 5 : ℚ) * ((0 : ℤ) : ℚ) * ((16 : ℤ) : ℚ) = 0 := by
      push_cast
      ring
    rw [hq, pyInt_zero]
    norm_num

/-- C7 (amended): construction performs no validation and always returns
an object: non-positive dimensions give a board with an empty cell set;
negative density places no mines and leaves `empty_remaining` at or above
the total cell count; and a density whose mine target exceeds the number
of cells makes the sampling loop unable to ever reach its target (the
Python constructor would loop forever). -/
theorem C7_no_validation (c r : ℤ) (d : ℚ) (draws : List Coord) :
    (c ≤ 0 ∨ r ≤ 0 → (init c r d draws).xys = ∅) ∧
    (0 < c → 0 < r → d < 0 →
      (init c r d draws).mines = ∅ ∧
      c * r ≤ (init c r d draws).empty_remaining) ∧
    (0 < c → 0 < r → (∀ z ∈ draws, z ∈ xysOf c r) →
      c * r < pyInt (d * (c : ℚ) * (r : ℚ)) →
      ((init c r d draws).mines.card : ℤ) < pyInt (d * (c : ℚ) * (r : ℚ))) := by
  refine ⟨?_, ?_, ?_⟩
  · intro h
    show xysOf c r = ∅
    rcases h with h | h
    · rw [xysOf, Finset.Ico_eq_empty (by omega), Finset.empty_product]
    · have h2 : Finset.Ico (0 : ℤ) r = ∅ := Finset.Ico_eq_empty (by omega)
      rw [xysOf, h2, Finset.product_empty]
  · intro hc hr hd
    have hq : d * (c : ℚ) * (r : ℚ) < 0 := by
      have h1 : d * (c : ℚ) < 0 :=
        mul_neg_of_neg_of_pos hd (by exact_mod_cast hc)
      exact mul_neg_of_neg_of_pos h1 (by exact_mod_cast hr)
    have ht : pyInt (d * (c : ℚ) * (r : ℚ)) ≤ 0 := pyInt_nonpos hq
    constructor
    · show placeMines (pyInt (d * (c : ℚ) * (r : ℚ))).toNat draws = ∅
      rw [Int.toNat_of_nonpos ht]
      exact placeMines_zero draws
    · show c * r ≤ c * r - pyInt (d * (c : ℚ) * (r : ℚ))
      omega
  · intro hc hr hdraws ht
    have hsub := init_mines_subset (d := d) hdraws
    have hle : ((init c r d draws).mines.card : ℤ) ≤ ((xysOf c r).card : ℤ) := by
      exact_mod_cast Finset.card_le_card hsub
    rw [xysOf_card c r hc.le hr.le] at hle
    omega

/-- Witness for C7: a zero-column construction and a negative-density
construction, both completing without error. -/
theorem C7_no_validation_witness :
    (init 0 16 (1 / 5) ([] : List Coord)).xys = ∅ ∧
    (init 2 2 (-(1 / 2)) ([] : List Coord)).mines = ∅ :=
  ⟨(C7_no_validation 0 16 (1 / 5) []).1 (Or.inl le_rfl),
    ((C7_no_validation 2 2 (-(1 / 2)) []).2.1 (by decide) (by decide)
      neg_half_lt_zero).1⟩
